import Mathlib

/-!
Verification of the death-certificate field-resolution and geometry-reconstruction
pipeline (`src/lib/deathCertPipeline.ts`).

The embedding models JavaScript numbers as rationals (`ℚ`), JS `Map` as an
insertion-ordered association list with overwrite-on-set (matching `Map`'s
documented semantics: `set` on an existing key replaces the value in place,
iteration follows insertion order, and constructing a `Map` from an entry list
lets later duplicate keys win), and the Gemini model response as an exogenous
parameter: the serialized OCR text only influences the external model, so the
pipeline is a function of the OCR words, the page dimensions and the response.
String keys of the form `x,y` built from JS numbers are modelled as the pair
`(x, y) : ℚ × ℚ`: JS number-to-string rendering is injective on numeric values
(up to `-0`/`0`, which do not differ in `ℚ`), so equality of the string keys
coincides with equality of the pairs.
-/

namespace DeathCert

/-- An OCR word as produced by the external OCR provider: recognized text plus a
pixel-space bounding quadrilateral of 8 numbers (4 corner x,y pairs). -/
structure OcrWord where
  content : String
  polygon : List ℚ
deriving DecidableEq

/-- The output highlight record of the pipeline (type `Highlight` in the source). -/
structure Highlight where
  id : String
  x : ℚ
  y : ℚ
  width : ℚ
  height : ℚ
  text : String
deriving DecidableEq

/-- A model-reported field mention (type `FieldMatch` in the source); `groupId`
is `z.number()` in the schema, hence a rational here. -/
structure FieldMatch where
  word : String
  coordinate : ℚ × ℚ
  groupId : ℚ
deriving DecidableEq

/-- The schema-validated model output (type `ParsedFieldValues` in the source). -/
structure ParsedFieldValues where
  name : List FieldMatch
  dateOfBirth : List FieldMatch
  address : List FieldMatch
  causeOfDeath : List FieldMatch
deriving DecidableEq

/-- Page dimensions of the (single) OCR page. -/
structure Page where
  width : ℚ
  height : ℚ
deriving DecidableEq

/-- Rendering of a JS number to a string, as used in template literals.  It is
exact for integer-valued numbers (`${10}` is `"10"`, `${-3}` is `"-3"`), which
covers every value the claims and the OCR fixture exercise; non-integer
rationals are rendered by `Rat.toString` as a modelling boundary (JS would
print a decimal float expansion there). -/
def numStr (q : ℚ) : String :=
  if q.den = 1 then toString q.num else toString q

/-- One serialized OCR line: `content:x, y` from the word's top-left corner.
The source reads `word.polygon[0] ?? 0`, defaulting a missing corner to `0`. -/
def ocrLine (w : OcrWord) : String :=
  w.content ++ ":" ++ numStr (w.polygon.getD 0 0) ++ ", " ++ numStr (w.polygon.getD 1 0)

/-- Embedding of `toTopLeftOcrLines`: one line per word joined by newlines
(JS `Array.prototype.join("\n")` is `String.intercalate "\n"`). -/
def toTopLeftOcrLines (words : List OcrWord) : String :=
  String.intercalate "\n" (words.map ocrLine)

/-- The four corner x-values of a word's quadrilateral (`polygon[0], [2], [4],
[6]`).  The source indexes directly without a default; for polygons honouring
the OCR contract of 8 entries `getD` agrees with it (a shorter polygon would
give `undefined`, hence NaN geometry, in JS — outside the OCR contract and
outside this model). -/
def cornerXs (w : OcrWord) : List ℚ :=
  [w.polygon.getD 0 0, w.polygon.getD 2 0, w.polygon.getD 4 0, w.polygon.getD 6 0]

/-- The four corner y-values of a word's quadrilateral (`polygon[1], [3], [5], [7]`). -/
def cornerYs (w : OcrWord) : List ℚ :=
  [w.polygon.getD 1 0, w.polygon.getD 3 0, w.polygon.getD 5 0, w.polygon.getD 7 0]

/-- Embedding of `Math.min(...list)`.  On the empty list JS yields `Infinity`;
that case is unreachable at the pipeline's call sites (groups are non-empty,
see the C10 theorem) and is modelled as `0`. -/
def jsMin : List ℚ → ℚ
  | [] => 0
  | x :: xs => xs.foldl min x

/-- Embedding of `Math.max(...list)`; empty case as in `jsMin`. -/
def jsMax : List ℚ → ℚ
  | [] => 0
  | x :: xs => xs.foldl max x

/-- Embedding of `wordsToHighlight`: union pixel bounding box over all corner
values of the group's words, divided by the page dimensions. -/
def wordsToHighlight (groupWords : List OcrWord) (pageWidth pageHeight : ℚ)
    (text id : String) : Highlight :=
  let allXs := groupWords.flatMap cornerXs
  let allYs := groupWords.flatMap cornerYs
  let minX := jsMin allXs
  let maxX := jsMax allXs
  let minY := jsMin allYs
  let maxY := jsMax allYs
  { id := id
    text := text
    x := minX / pageWidth
    y := minY / pageHeight
    width := (maxX - minX) / pageWidth
    height := (maxY - minY) / pageHeight }

/-- The per-highlight body of the `highlights.map` closure in
`normalizeHighlights`: clamp `x`/`y` into `[0,1]` first, then clamp
`width`/`height` against the already-clamped `x`/`y`. -/
def normalizeOne (highlight : Highlight) : Highlight :=
  let x := max 0 (min 1 highlight.x)
  let y := max 0 (min 1 highlight.y)
  let width := max 0 (min (1 - x) highlight.width)
  let height := max 0 (min (1 - y) highlight.height)
  { highlight with x := x, y := y, width := width, height := height }

/-- Embedding of `normalizeHighlights`. -/
def normalizeHighlights (highlights : List Highlight) : List Highlight :=
  highlights.map normalizeOne

/-- The join key `(polygon[0] ?? 0, polygon[1] ?? 0)` of a word's top-left corner. -/
def topLeftKey (w : OcrWord) : ℚ × ℚ :=
  (w.polygon.getD 0 0, w.polygon.getD 1 0)

/-- Model of `Map.prototype.set`: overwrite in place when the key exists
(keeping its insertion position), otherwise append at the end. -/
def mapSet {K V : Type} [DecidableEq K] (m : List (K × V)) (k : K) (v : V) :
    List (K × V) :=
  if m.any (fun e => e.1 = k) then
    m.map (fun e => if e.1 = k then (k, v) else e)
  else
    m ++ [(k, v)]

/-- Model of `Map.prototype.get`: the value stored at the key, if present. -/
def mapGet {K V : Type} [DecidableEq K] (m : List (K × V)) (k : K) : Option V :=
  (m.find? (fun e => e.1 = k)).map (fun e => e.2)

/-- Embedding of `new Map(words.map((word) => [key, word]))`: entries are set
one after the other, so a later word with the same top-left key overwrites an
earlier one. -/
def buildWordMap (words : List OcrWord) : List ((ℚ × ℚ) × OcrWord) :=
  words.foldl (fun m w => mapSet m (topLeftKey w) w) []

/-- One grouping accumulator entry: the mention words and resolved OCR words of
a `groupId`, each in model-response order. -/
structure Group where
  words : List String
  ocrWords : List OcrWord
deriving DecidableEq

/-- The body of the `values.forEach` grouping loop of `mapFieldListToHighlights`:
a mention whose coordinate key misses the word map is skipped; otherwise it is
appended to its `groupId`'s group, which is created on first resolution. -/
def groupStep (wordMap : List ((ℚ × ℚ) × OcrWord)) (groups : List (ℚ × Group))
    (v : FieldMatch) : List (ℚ × Group) :=
  match mapGet wordMap v.coordinate with
  | none => groups
  | some matchedWord =>
    match mapGet groups v.groupId with
    | some existing =>
        mapSet groups v.groupId
          ⟨existing.words ++ [v.word], existing.ocrWords ++ [matchedWord]⟩
    | none => mapSet groups v.groupId ⟨[v.word], [matchedWord]⟩

/-- Embedding of the whole grouping loop: fold `groupStep` over the mention
list, starting from the empty map. -/
def buildGroups (values : List FieldMatch) (wordMap : List ((ℚ × ℚ) × OcrWord)) :
    List (ℚ × Group) :=
  values.foldl (groupStep wordMap) []

/-- The deterministic highlight identifier `h-<fieldKey>-g-<groupId>`. -/
def highlightId (fieldKey : String) (groupId : ℚ) : String :=
  "h-" ++ fieldKey ++ "-g-" ++ numStr groupId

/-- Embedding of `mapFieldListToHighlights`.  The trailing
`.filter((highlight) => Boolean(highlight))` keeps everything, since
`Boolean` of an object is always `true`; it is modelled as a filter by the
constantly-true predicate. -/
def mapFieldListToHighlights (fieldLabel fieldKey : String) (values : List FieldMatch)
    (words : List OcrWord) (pageWidth pageHeight : ℚ) : List Highlight :=
  let wordByTopLeft := buildWordMap words
  let groups := buildGroups values wordByTopLeft
  (groups.map fun entry =>
    wordsToHighlight entry.2.ocrWords pageWidth pageHeight
      (fieldLabel ++ ": " ++ String.intercalate " " entry.2.words)
      (highlightId fieldKey entry.1)).filter fun _ => true

/-- Embedding of `mapFieldsToHighlights`: the four category lists concatenated
in the fixed order name, date-of-birth, address, cause-of-death, then normalized. -/
def mapFieldsToHighlights (fields : ParsedFieldValues) (words : List OcrWord)
    (pageWidth pageHeight : ℚ) : List Highlight :=
  normalizeHighlights
    (mapFieldListToHighlights "Name" "name" fields.name words pageWidth pageHeight
      ++ mapFieldListToHighlights "Date of Birth" "dateOfBirth" fields.dateOfBirth
          words pageWidth pageHeight
      ++ mapFieldListToHighlights "Address" "address" fields.address
          words pageWidth pageHeight
      ++ mapFieldListToHighlights "Cause of Death" "causeOfDeath" fields.causeOfDeath
          words pageWidth pageHeight)

/-- A JSON value, as produced by a successful `JSON.parse`. -/
inductive Json where
  | null : Json
  | bool : Bool → Json
  | num : ℚ → Json
  | str : String → Json
  | arr : List Json → Json
  | obj : List (String × Json) → Json

/-- Property lookup on a parsed JSON object; `JSON.parse` lets the last
duplicate key win. -/
def jGet (fields : List (String × Json)) (k : String) : Option Json :=
  ((fields.filter (fun e => e.1 = k)).getLast?).map (fun e => e.2)

/-- Validation of one field item against
`z.object({word: z.string(), coordinate: z.tuple([z.number(), z.number()]), groupId: z.number()})`:
every declared key must be present with the right shape (the tuple must be an
array of exactly two numbers); unknown keys are stripped. -/
def parseFieldMatch : Json → Option FieldMatch
  | Json.obj fs =>
    match jGet fs "word", jGet fs "coordinate", jGet fs "groupId" with
    | some (Json.str w), some (Json.arr [Json.num x, Json.num y]), some (Json.num g) =>
        some ⟨w, (x, y), g⟩
    | _, _, _ => none
  | _ => none

/-- Validation of a field list against `z.array(...)`: every element must validate. -/
def parseFieldList : Json → Option (List FieldMatch)
  | Json.arr es => es.mapM parseFieldMatch
  | _ => none

/-- Embedding of `parsedFieldsSchema.safeParse`: the value must be an object
carrying all four category keys, each a valid field list. -/
def safeParseFields : Json → Option ParsedFieldValues
  | Json.obj fs => do
    let n ← jGet fs "name" >>= parseFieldList
    let d ← jGet fs "dateOfBirth" >>= parseFieldList
    let a ← jGet fs "address" >>= parseFieldList
    let c ← jGet fs "causeOfDeath" >>= parseFieldList
    pure ⟨n, d, a, c⟩
  | _ => none

/-- Outcome of the Gemini call as seen by `extractFieldsFromGemini`: the
response text is falsy (absent or empty), or it is present but `JSON.parse`
throws on it, or it parses to a JSON value. -/
inductive ModelResponse where
  | noText : ModelResponse
  | invalidJson : ModelResponse
  | json : Json → ModelResponse

/-- A JavaScript exception escaping the pipeline. -/
inductive JsError where
  | parseException : JsError
deriving DecidableEq

/-- Embedding of the response handling of `extractFieldsFromGemini`: falsy text
returns `null`; otherwise the source evaluates
`parsedFieldsSchema.safeParse(JSON.parse(response.text))` — `JSON.parse` is not
guarded by any try/catch, so its exception propagates; `safeParse` never
throws, and a validation failure returns `null`. -/
def extractFieldsFromGemini : ModelResponse → Except JsError (Option ParsedFieldValues)
  | ModelResponse.noText => Except.ok none
  | ModelResponse.invalidJson => Except.error JsError.parseException
  | ModelResponse.json v => Except.ok (safeParseFields v)

/-- Embedding of `runDeathCertificatePipeline`.  The source obtains `words` and
`page` from the bundled OCR fixture module (not part of the pipeline source)
and the model response from the network; both are parameters here.  A `null`
field extraction short-circuits to the empty list; an exception from the
extraction stage propagates. -/
def runDeathCertificatePipeline (words : List OcrWord) (page : Page)
    (resp : ModelResponse) : Except JsError (List Highlight) :=
  match extractFieldsFromGemini resp with
  | Except.error e => Except.error e
  | Except.ok none => Except.ok []
  | Except.ok (some fields) =>
      Except.ok (mapFieldsToHighlights fields words page.width page.height)

/-- Whether a mention's coordinate resolves to some OCR word, as the
Coordinate Resolver decides it. -/
def resolves (words : List OcrWord) (v : FieldMatch) : Bool :=
  (mapGet (buildWordMap words) v.coordinate).isSome

/-- First-occurrence deduplication, keeping the order of first appearance. -/
def firstSeen (l : List ℚ) : List ℚ :=
  l.foldl (fun acc x => if x ∈ acc then acc else acc ++ [x]) []

/-- The group identifiers of the mentions of one category that resolve to an
OCR word, in mention-list order (with repetitions). -/
def resolvedGroupIds (values : List FieldMatch) (words : List OcrWord) : List ℚ :=
  (values.filter (fun v => resolves words v)).map (fun v => v.groupId)

/-- Number of newline characters in a string. -/
def countNl (s : String) : Nat :=
  s.data.count (Char.ofNat 10)

end DeathCert

namespace DeathCert

/-- Projections of `normalizeOne`. -/
theorem normalizeOne_x (g : Highlight) : (normalizeOne g).x = max 0 (min 1 g.x) := rfl

theorem normalizeOne_y (g : Highlight) : (normalizeOne g).y = max 0 (min 1 g.y) := rfl

theorem normalizeOne_width (g : Highlight) :
    (normalizeOne g).width = max 0 (min (1 - max 0 (min 1 g.x)) g.width) := rfl

theorem normalizeOne_height (g : Highlight) :
    (normalizeOne g).height = max 0 (min (1 - max 0 (min 1 g.y)) g.height) := rfl

theorem normalizeOne_id (g : Highlight) : (normalizeOne g).id = g.id := rfl

theorem normalizeOne_text (g : Highlight) : (normalizeOne g).text = g.text := rfl

/-- C9: the Normalizer is total and never drops a highlight: the output list of
`normalizeHighlights` has the same length and order as the input, and each
output highlight keeps the `id` and `text` of the corresponding input
highlight — only the geometry fields may change. -/
theorem C9_normalizer_frame (hs : List Highlight) :
    (normalizeHighlights hs).length = hs.length
      ∧ (normalizeHighlights hs).map (fun h => h.id) = hs.map (fun h => h.id)
      ∧ (normalizeHighlights hs).map (fun h => h.text) = hs.map (fun h => h.text) := by
  refine ⟨by simp [normalizeHighlights], ?_, ?_⟩ <;>
    simp [normalizeHighlights, List.map_map, Function.comp_def,
      normalizeOne_id, normalizeOne_text]

/-- C2: every output of `normalizeHighlights` is contained in the unit square:
`0 ≤ x`, `0 ≤ y`, `x + width ≤ 1` and `y + height ≤ 1`, because `x`/`y` are
clamped to `[0,1]` first and `width`/`height` are then clamped against the
already-clamped `x`/`y`. -/
theorem C2_containment (hs : List Highlight) (h : Highlight)
    (hmem : h ∈ normalizeHighlights hs) :
    0 ≤ h.x ∧ 0 ≤ h.y ∧ h.x + h.width ≤ 1 ∧ h.y + h.height ≤ 1 := by
  simp only [normalizeHighlights, List.mem_map] at hmem
  obtain ⟨g, -, rfl⟩ := hmem
  rw [normalizeOne_x, normalizeOne_y, normalizeOne_width, normalizeOne_height]
  have hx1 : max 0 (min 1 g.x) ≤ 1 := max_le (by norm_num) (min_le_left _ _)
  have hy1 : max 0 (min 1 g.y) ≤ 1 := max_le (by norm_num) (min_le_left _ _)
  have hw : max 0 (min (1 - max 0 (min 1 g.x)) g.width) ≤ 1 - max 0 (min 1 g.x) :=
    max_le (by linarith) (min_le_left _ _)
  have hh : max 0 (min (1 - max 0 (min 1 g.y)) g.height) ≤ 1 - max 0 (min 1 g.y) :=
    max_le (by linarith) (min_le_left _ _)
  refine ⟨le_max_left _ _, le_max_left _ _, by linarith, by linarith⟩

/-- Witness for C2 at a highlight whose raw geometry lies far outside the page. -/
theorem C2_containment_witness :
    (⟨"w", 0, 1, 1, 0, "t"⟩ : Highlight)
        ∈ normalizeHighlights [⟨"w", -1/2, 2, 5, 3, "t"⟩]
      ∧ 0 ≤ (⟨"w", 0, 1, 1, 0, "t"⟩ : Highlight).x
      ∧ 0 ≤ (⟨"w", 0, 1, 1, 0, "t"⟩ : Highlight).y
      ∧ (⟨"w", 0, 1, 1, 0, "t"⟩ : Highlight).x
          + (⟨"w", 0, 1, 1, 0, "t"⟩ : Highlight).width ≤ 1
      ∧ (⟨"w", 0, 1, 1, 0, "t"⟩ : Highlight).y
          + (⟨"w", 0, 1, 1, 0, "t"⟩ : Highlight).height ≤ 1 := by
  have heq : normalizeHighlights [⟨"w", -1/2, 2, 5, 3, "t"⟩]
      = [⟨"w", 0, 1, 1, 0, "t"⟩] := by
    simp only [normalizeHighlights, normalizeOne, List.map_cons, List.map_nil]
    norm_num [min_def, max_def]
  have hmem : (⟨"w", 0, 1, 1, 0, "t"⟩ : Highlight)
      ∈ normalizeHighlights [⟨"w", -1/2, 2, 5, 3, "t"⟩] := by
    rw [heq]; exact List.mem_singleton.mpr rfl
  have h := C2_containment [⟨"w", -1/2, 2, 5, 3, "t"⟩] ⟨"w", 0, 1, 1, 0, "t"⟩ hmem
  exact ⟨hmem, h.1, h.2.1, h.2.2.1, h.2.2.2⟩

end DeathCert

namespace DeathCert

/-- C1 counterexample: the claim says a model response whose text fails JSON
parsing yields the "no fields found" result and an empty highlight list with no
exception; in the code `JSON.parse(response.text)` is not guarded by any
try/catch, so the pipeline propagates the parse exception instead of returning
`Except.ok []`. -/
theorem C1_counterexample :
    runDeathCertificatePipeline [] ⟨200, 400⟩ ModelResponse.invalidJson
      = Except.error JsError.parseException := rfl

/-- C1 amended: if the response text is empty the Field Extraction Client
yields the "no fields found" result, and if the parsed JSON value fails schema
validation it does too; in both cases the orchestrator returns the empty
highlight list and no exception escapes.  If however the response text is
non-empty and is not valid JSON, the `JSON.parse` exception propagates out of
the pipeline. -/
theorem C1_failure_handling (words : List OcrWord) (page : Page) (v : Json)
    (hv : safeParseFields v = none) :
    runDeathCertificatePipeline words page ModelResponse.noText = Except.ok []
      ∧ runDeathCertificatePipeline words page (ModelResponse.json v) = Except.ok []
      ∧ runDeathCertificatePipeline words page ModelResponse.invalidJson
          = Except.error JsError.parseException := by
  refine ⟨rfl, ?_, rfl⟩
  simp [runDeathCertificatePipeline, extractFieldsFromGemini, hv]

/-- Witness for the amended C1 at the schema-invalid parsed value `null`. -/
theorem C1_failure_handling_witness :
    safeParseFields Json.null = none
      ∧ runDeathCertificatePipeline [] ⟨200, 400⟩ ModelResponse.noText = Except.ok []
      ∧ runDeathCertificatePipeline [] ⟨200, 400⟩ (ModelResponse.json Json.null)
          = Except.ok [] := by
  have h := C1_failure_handling [] ⟨200, 400⟩ Json.null rfl
  exact ⟨rfl, h.1, h.2.1⟩

/-- C6: on the single OCR word `DOE` with quadrilateral
`[10,20,60,20,60,40,10,40]` on a 200×400 page and the single name-category
mention `(word DOE, coordinate (10,20), groupId 1)`, the geometry stages
produce exactly one highlight with `x = 0.05`, `y = 0.05`, `width = 0.25`,
`height = 0.05` and text `Name: DOE`. -/
theorem C6_single_word_scenario :
    mapFieldsToHighlights
        ⟨[⟨"DOE", (10, 20), 1⟩], [], [], []⟩
        [⟨"DOE", [10, 20, 60, 20, 60, 40, 10, 40]⟩] 200 400
      = [⟨"h-name-g-1", 0.05, 0.05, 0.25, 0.05, "Name: DOE"⟩] := by
  show normalizeHighlights [wordsToHighlight _ _ _ _ _] = _
  norm_num [normalizeHighlights, normalizeOne, wordsToHighlight, jsMin, jsMax,
    cornerXs, cornerYs, min_def, max_def]
  exact ⟨by decide, by decide⟩

end DeathCert

namespace DeathCert

/-- Lookup on a cons cell of the association-list map model. -/
theorem mapGet_cons {K V : Type} [DecidableEq K] (e : K × V) (m : List (K × V)) (k : K) :
    mapGet (e :: m) k = if e.1 = k then some e.2 else mapGet m k := by
  by_cases h : e.1 = k <;> simp [mapGet, List.find?_cons, h]

/-- Overwriting an existing key and then looking it up returns the new value. -/
theorem mapGet_map_replace_self {K V : Type} [DecidableEq K] (m : List (K × V))
    (k : K) (v : V) (hany : m.any (fun e => e.1 = k) = true) :
    mapGet (m.map (fun e => if e.1 = k then (k, v) else e)) k = some v := by
  induction m with
  | nil => simp at hany
  | cons e es ih =>
    simp only [List.map_cons]
    by_cases he : e.1 = k
    · rw [if_pos he, mapGet_cons]; simp
    · rw [if_neg he, mapGet_cons, if_neg he]
      exact ih (by simpa [he] using hany)

/-- Overwriting key `k` does not change lookups at other keys. -/
theorem mapGet_map_replace {K V : Type} [DecidableEq K] (es : List (K × V))
    (k k' : K) (v : V) (hne : k' ≠ k) :
    mapGet (es.map (fun e => if e.1 = k then (k, v) else e)) k' = mapGet es k' := by
  induction es with
  | nil => rfl
  | cons e es ih =>
    simp only [List.map_cons]
    by_cases he : e.1 = k
    · rw [if_pos he, mapGet_cons, mapGet_cons, if_neg (fun h => hne h.symm),
        if_neg (fun h => hne (by rw [← h]; exact he))]
      exact ih
    · rw [if_neg he, mapGet_cons, mapGet_cons]
      by_cases hek : e.1 = k' <;> simp [hek, ih]

/-- Lookup distributes over append of map entry lists. -/
theorem mapGet_append {K V : Type} [DecidableEq K] (m l : List (K × V)) (k : K) :
    mapGet (m ++ l) k = (mapGet m k).or (mapGet l k) := by
  simp only [mapGet, List.find?_append]
  cases m.find? (fun e => e.1 = k) <;> simp

/-- The JS `Map.set` model behaves as a pointwise update under `get`. -/
theorem mapGet_mapSet {K V : Type} [DecidableEq K] (m : List (K × V)) (k k' : K) (v : V) :
    mapGet (mapSet m k v) k' = if k' = k then some v else mapGet m k' := by
  unfold mapSet
  by_cases hany : m.any (fun e => e.1 = k)
  · rw [if_pos hany]
    by_cases hk : k' = k
    · rw [if_pos hk, hk, mapGet_map_replace_self m k v hany]
    · rw [if_neg hk, mapGet_map_replace m k k' v hk]
  · rw [if_neg hany, mapGet_append]
    have hsingle : mapGet ([(k, v)] : List (K × V)) k' = if k' = k then some v else none := by
      rw [mapGet_cons]
      by_cases hk : k' = k
      · rw [if_pos hk.symm, if_pos hk]
      · rw [if_neg (fun h => hk h.symm), if_neg hk]; rfl
    by_cases hk : k' = k
    · have hnone : m.find? (fun e => e.1 = k') = none := by
        rw [List.find?_eq_none]
        intro x hx hpx
        have hxk : x.1 = k := (of_decide_eq_true hpx).trans hk
        exact hany (List.any_eq_true.mpr ⟨x, hx, decide_eq_true hxk⟩)
      have h1 : mapGet m k' = none := by unfold mapGet; rw [hnone]; rfl
      rw [h1, hsingle, if_pos hk]
      rfl
    · rw [if_neg hk, hsingle, if_neg hk]
      cases mapGet m k' <;> rfl

end DeathCert

namespace DeathCert

/-- Folding the word-map construction over a word list: each key reads back the
last word in list order carrying that top-left key, falling back to the initial
map when no word in the list carries it. -/
theorem mapGet_foldl_mapSet (words : List OcrWord) (m : List ((ℚ × ℚ) × OcrWord))
    (k : ℚ × ℚ) :
    mapGet (words.foldl (fun acc w => mapSet acc (topLeftKey w) w) m) k
      = ((words.filter (fun w => topLeftKey w = k)).getLast?).elim (mapGet m k) some := by
  induction words generalizing m with
  | nil => simp
  | cons w ws ih =>
    rw [List.foldl_cons, ih, List.filter_cons]
    by_cases hk : topLeftKey w = k
    · rw [if_pos (decide_eq_true hk)]
      cases hfe : ws.filter (fun w => topLeftKey w = k) with
      | nil =>
        rw [mapGet_mapSet, if_pos hk.symm]
        rfl
      | cons b bs =>
        rw [List.getLast?_cons_cons]
        cases hlast : (b :: bs).getLast? with
        | none => exact absurd hlast (by simp [List.getLast?_eq_none_iff])
        | some u => rfl
    · rw [if_neg (by simpa using hk)]
      rw [mapGet_mapSet, if_neg (fun h => hk h.symm)]

/-- C8: the top-left coordinate lookup built from the OCR word list silently
collides on duplicate keys with last-write-wins semantics: a mention's
coordinate resolves to the last word in list order whose top-left key equals
that coordinate (and to nothing when no word carries it). -/
theorem C8_duplicate_key_last_write_wins (words : List OcrWord) (v : FieldMatch) :
    mapGet (buildWordMap words) v.coordinate
      = (words.filter (fun w => topLeftKey w = v.coordinate)).getLast? := by
  unfold buildWordMap
  rw [mapGet_foldl_mapSet]
  cases (words.filter (fun w => topLeftKey w = v.coordinate)).getLast? <;> rfl

end DeathCert

namespace DeathCert

/-- Folding the grouping step over a mention list visits only the mentions
whose coordinate resolves in the word map: unresolved mentions are skipped
without affecting the accumulator. -/
theorem foldl_groupStep_filter (wm : List ((ℚ × ℚ) × OcrWord)) (values : List FieldMatch)
    (g : List (ℚ × Group)) :
    values.foldl (groupStep wm) g
      = (values.filter (fun v => (mapGet wm v.coordinate).isSome)).foldl (groupStep wm) g := by
  induction values generalizing g with
  | nil => rfl
  | cons v vs ih =>
    rw [List.foldl_cons, List.filter_cons]
    cases hres : mapGet wm v.coordinate with
    | none =>
      rw [if_neg (by simp [hres])]
      have hstep : groupStep wm g v = g := by unfold groupStep; rw [hres]
      rw [hstep]
      exact ih g
    | some mw =>
      rw [if_pos (by simp [hres]), List.foldl_cons]
      exact ih (groupStep wm g v)

/-- Dropping the unresolvable mentions beforehand does not change the groups. -/
theorem buildGroups_filter (values : List FieldMatch) (wm : List ((ℚ × ℚ) × OcrWord)) :
    buildGroups values wm
      = buildGroups (values.filter (fun v => (mapGet wm v.coordinate).isSome)) wm := by
  unfold buildGroups
  exact foldl_groupStep_filter wm values []

/-- C4: a mention whose coordinate key matches no OCR word's top-left key is
dropped individually, without error and without affecting the other mentions:
the highlights equal those computed from the resolvable mentions alone.  In
particular, for three mentions sharing `groupId` 1 where only the middle one
has a coordinate absent from the OCR word list, the single resulting highlight
is built from exactly the two matched words. -/
theorem C4_unmatched_mention_dropped :
    (∀ (fieldLabel fieldKey : String) (values : List FieldMatch) (words : List OcrWord)
        (pw ph : ℚ),
      mapFieldListToHighlights fieldLabel fieldKey values words pw ph
        = mapFieldListToHighlights fieldLabel fieldKey
            (values.filter (fun v => resolves words v)) words pw ph)
    ∧ mapFieldListToHighlights "Name" "name"
        [⟨"JOHN", (10, 20), 1⟩, ⟨"GHOST", (500, 500), 1⟩, ⟨"DOE", (70, 20), 1⟩]
        [⟨"JOHN", [10, 20, 60, 20, 60, 40, 10, 40]⟩,
         ⟨"DOE", [70, 20, 120, 20, 120, 40, 70, 40]⟩] 200 400
      = mapFieldListToHighlights "Name" "name"
        [⟨"JOHN", (10, 20), 1⟩, ⟨"DOE", (70, 20), 1⟩]
        [⟨"JOHN", [10, 20, 60, 20, 60, 40, 10, 40]⟩,
         ⟨"DOE", [70, 20, 120, 20, 120, 40, 70, 40]⟩] 200 400
    ∧ mapFieldListToHighlights "Name" "name"
        [⟨"JOHN", (10, 20), 1⟩, ⟨"GHOST", (500, 500), 1⟩, ⟨"DOE", (70, 20), 1⟩]
        [⟨"JOHN", [10, 20, 60, 20, 60, 40, 10, 40]⟩,
         ⟨"DOE", [70, 20, 120, 20, 120, 40, 70, 40]⟩] 200 400
      = [wordsToHighlight
          [⟨"JOHN", [10, 20, 60, 20, 60, 40, 10, 40]⟩,
           ⟨"DOE", [70, 20, 120, 20, 120, 40, 70, 40]⟩] 200 400
          "Name: JOHN DOE" "h-name-g-1"] := by
  refine ⟨?_, rfl, rfl⟩
  intro fieldLabel fieldKey values words pw ph
  simp only [mapFieldListToHighlights, resolves]
  rw [buildGroups_filter]

end DeathCert

namespace DeathCert

/-- Setting a key preserves the key sequence when the key is present and
appends it at the end otherwise. -/
theorem keys_mapSet {K V : Type} [DecidableEq K] (m : List (K × V)) (k : K) (v : V) :
    (mapSet m k v).map (fun e => e.1)
      = if m.any (fun e => e.1 = k) then m.map (fun e => e.1)
        else m.map (fun e => e.1) ++ [k] := by
  unfold mapSet
  by_cases h : m.any (fun e => e.1 = k)
  · rw [if_pos h, if_pos h, List.map_map]
    refine List.map_congr_left fun e _ => ?_
    by_cases he : e.1 = k
    · simp [he]
    · simp [he]
  · rw [if_neg h, if_neg h, List.map_append]
    rfl

/-- A key lookup succeeds exactly when some entry carries the key. -/
theorem mapGet_isSome_iff {K V : Type} [DecidableEq K] (m : List (K × V)) (k : K) :
    (mapGet m k).isSome ↔ m.any (fun e => e.1 = k) = true := by
  unfold mapGet
  simp [List.find?_isSome, List.any_eq_true]

/-- A key is among the mapped keys exactly when some entry carries it. -/
theorem mem_keys_iff_any {K V : Type} [DecidableEq K] (m : List (K × V)) (k : K) :
    k ∈ m.map (fun e => e.1) ↔ m.any (fun e => e.1 = k) = true := by
  rw [List.any_eq_true]
  constructor
  · intro h
    obtain ⟨e, he, hek⟩ := List.mem_map.mp h
    exact ⟨e, he, by simpa using hek⟩
  · intro h
    obtain ⟨e, he, hek⟩ := h
    exact List.mem_map.mpr ⟨e, he, by simpa using hek⟩

/-- The key sequence of the grouping fold is the first-seen fold of the
resolved mentions' group identifiers, starting from the accumulator's keys. -/
theorem keys_foldl_groupStep (wm : List ((ℚ × ℚ) × OcrWord)) (values : List FieldMatch)
    (g : List (ℚ × Group)) :
    (values.foldl (groupStep wm) g).map (fun e => e.1)
      = ((values.filter (fun v => (mapGet wm v.coordinate).isSome)).map
            (fun v => v.groupId)).foldl
          (fun acc x => if x ∈ acc then acc else acc ++ [x]) (g.map (fun e => e.1)) := by
  induction values generalizing g with
  | nil => rfl
  | cons v vs ih =>
    rw [List.foldl_cons, List.filter_cons]
    cases hres : mapGet wm v.coordinate with
    | none =>
      rw [if_neg (by simp [hres])]
      have hstep : groupStep wm g v = g := by unfold groupStep; rw [hres]
      rw [hstep]
      exact ih g
    | some mw =>
      rw [if_pos (by simp [hres]), List.map_cons, List.foldl_cons, ih (groupStep wm g v)]
      congr 1
      unfold groupStep
      rw [hres]
      cases hg : mapGet g v.groupId with
      | some ex =>
        have hany : g.any (fun e => e.1 = v.groupId) = true :=
          (mapGet_isSome_iff g v.groupId).mp (by rw [hg]; rfl)
        rw [keys_mapSet, if_pos hany,
          if_pos ((mem_keys_iff_any g v.groupId).mpr hany)]
      | none =>
        have hany : ¬ g.any (fun e => e.1 = v.groupId) = true := by
          intro h
          have := (mapGet_isSome_iff g v.groupId).mpr h
          rw [hg] at this
          simp at this
        rw [keys_mapSet, if_neg hany,
          if_neg (fun hmem => hany ((mem_keys_iff_any g v.groupId).mp hmem))]

/-- The group identifiers of the built groups, in map iteration order, are the
first-seen group identifiers of the resolved mentions. -/
theorem buildGroups_keys (values : List FieldMatch) (wm : List ((ℚ × ℚ) × OcrWord)) :
    (buildGroups values wm).map (fun e => e.1)
      = firstSeen ((values.filter (fun v => (mapGet wm v.coordinate).isSome)).map
          (fun v => v.groupId)) := by
  unfold buildGroups firstSeen
  simpa using keys_foldl_groupStep wm values []

/-- The identifiers of one category's highlights are the first-seen resolved
group identifiers rendered through `highlightId`. -/
theorem mapFieldListToHighlights_ids (fieldLabel fieldKey : String)
    (values : List FieldMatch) (words : List OcrWord) (pw ph : ℚ) :
    (mapFieldListToHighlights fieldLabel fieldKey values words pw ph).map (fun h => h.id)
      = (firstSeen (resolvedGroupIds values words)).map (highlightId fieldKey) := by
  simp only [mapFieldListToHighlights, List.filter_true, List.map_map]
  rw [show resolvedGroupIds values words
      = (values.filter (fun v => (mapGet (buildWordMap words) v.coordinate).isSome)).map
          (fun v => v.groupId) from rfl,
    ← buildGroups_keys, List.map_map]
  rfl

/-- The identifiers of `normalizeHighlights` outputs equal those of its inputs. -/
theorem normalizeHighlights_ids (hs : List Highlight) :
    (normalizeHighlights hs).map (fun h => h.id) = hs.map (fun h => h.id) := by
  simp [normalizeHighlights, List.map_map, Function.comp_def, normalizeOne_id]

end DeathCert

namespace DeathCert

/-- C5: the final highlight list places all groups of one category — ordered by
first appearance of their `groupId` among that category's resolved mentions —
before any group of the next category, in the fixed category order name,
date-of-birth, address, cause-of-death; and a category whose mentions all fail
to resolve (or that has none) contributes zero highlights, never an empty
placeholder highlight. -/
theorem C5_highlight_order (fields : ParsedFieldValues) (words : List OcrWord)
    (pw ph : ℚ) :
    (mapFieldsToHighlights fields words pw ph).map (fun h => h.id)
      = (firstSeen (resolvedGroupIds fields.name words)).map (highlightId "name")
        ++ (firstSeen (resolvedGroupIds fields.dateOfBirth words)).map
            (highlightId "dateOfBirth")
        ++ (firstSeen (resolvedGroupIds fields.address words)).map
            (highlightId "address")
        ++ (firstSeen (resolvedGroupIds fields.causeOfDeath words)).map
            (highlightId "causeOfDeath")
      ∧ ∀ (fieldLabel fieldKey : String) (values : List FieldMatch),
          (∀ v ∈ values, resolves words v = false) →
          mapFieldListToHighlights fieldLabel fieldKey values words pw ph = [] := by
  constructor
  · rw [mapFieldsToHighlights, normalizeHighlights_ids]
    rw [List.map_append, List.map_append, List.map_append]
    rw [mapFieldListToHighlights_ids, mapFieldListToHighlights_ids,
      mapFieldListToHighlights_ids, mapFieldListToHighlights_ids]
  · intro fieldLabel fieldKey values hfail
    have hfil : values.filter
        (fun v => (mapGet (buildWordMap words) v.coordinate).isSome) = [] := by
      rw [List.filter_eq_nil_iff]
      intro v hv
      have := hfail v hv
      simpa [resolves] using this
    simp only [mapFieldListToHighlights, buildGroups_filter values (buildWordMap words),
      hfil]
    rfl

/-- Witness for C5 at a category whose single mention cannot resolve against an
empty OCR word list. -/
theorem C5_highlight_order_witness :
    (∀ v ∈ [(⟨"GHOST", (500, 500), 1⟩ : FieldMatch)],
        resolves ([] : List OcrWord) v = false)
      ∧ mapFieldListToHighlights "Name" "name"
          [⟨"GHOST", (500, 500), 1⟩] ([] : List OcrWord) 200 400 = [] := by
  refine ⟨by decide, ?_⟩
  exact (C5_highlight_order ⟨[], [], [], []⟩ [] 200 400).2 "Name" "name"
    [⟨"GHOST", (500, 500), 1⟩] (by decide)

end DeathCert

namespace DeathCert

/-- A left fold of `min` is bounded by its initial value. -/
theorem foldl_min_le_init (xs : List ℚ) (a : ℚ) : xs.foldl min a ≤ a := by
  induction xs generalizing a with
  | nil => exact le_refl a
  | cons x xs ih => exact le_trans (ih (min a x)) (min_le_left a x)

/-- A left fold of `min` is bounded by every list element. -/
theorem foldl_min_le_mem (xs : List ℚ) (a b : ℚ) : b ∈ xs → xs.foldl min a ≤ b := by
  induction xs generalizing a with
  | nil => intro hb; cases hb
  | cons x xs ih =>
    intro hb
    rw [List.foldl_cons]
    rcases List.mem_cons.mp hb with h | h
    · exact le_trans (foldl_min_le_init xs (min a x))
        (by rw [h]; exact min_le_right a x)
    · exact ih (min a x) h

/-- A left fold of `min` is the initial value or a list element. -/
theorem foldl_min_mem (xs : List ℚ) (a : ℚ) :
    xs.foldl min a = a ∨ xs.foldl min a ∈ xs := by
  induction xs generalizing a with
  | nil => exact Or.inl rfl
  | cons x xs ih =>
    rcases ih (min a x) with h | h
    · rcases min_choice a x with hm | hm
      · exact Or.inl (by rw [List.foldl_cons, h, hm])
      · exact Or.inr (by rw [List.foldl_cons, h, hm]; exact List.mem_cons_self x xs)
    · exact Or.inr (List.mem_cons_of_mem x h)

/-- A left fold of `max` bounds its initial value. -/
theorem init_le_foldl_max (xs : List ℚ) (a : ℚ) : a ≤ xs.foldl max a := by
  induction xs generalizing a with
  | nil => exact le_refl a
  | cons x xs ih => exact le_trans (le_max_left a x) (ih (max a x))

/-- A left fold of `max` bounds every list element. -/
theorem mem_le_foldl_max (xs : List ℚ) (a b : ℚ) : b ∈ xs → b ≤ xs.foldl max a := by
  induction xs generalizing a with
  | nil => intro hb; cases hb
  | cons x xs ih =>
    intro hb
    rw [List.foldl_cons]
    rcases List.mem_cons.mp hb with h | h
    · exact le_trans (by rw [h]; exact le_max_right a x)
        (init_le_foldl_max xs (max a x))
    · exact ih (max a x) h

/-- A left fold of `max` is the initial value or a list element. -/
theorem foldl_max_mem (xs : List ℚ) (a : ℚ) :
    xs.foldl max a = a ∨ xs.foldl max a ∈ xs := by
  induction xs generalizing a with
  | nil => exact Or.inl rfl
  | cons x xs ih =>
    rcases ih (max a x) with h | h
    · rcases max_choice a x with hm | hm
      · exact Or.inl (by rw [List.foldl_cons, h, hm])
      · exact Or.inr (by rw [List.foldl_cons, h, hm]; exact List.mem_cons_self x xs)
    · exact Or.inr (List.mem_cons_of_mem x h)

/-- On a non-empty list, `jsMin` is a member of the list. -/
theorem jsMin_mem (l : List ℚ) (hne : l ≠ []) : jsMin l ∈ l := by
  cases l with
  | nil => exact absurd rfl hne
  | cons x xs =>
    show xs.foldl min x ∈ x :: xs
    rcases foldl_min_mem xs x with h | h
    · rw [h]; exact List.mem_cons_self x xs
    · exact List.mem_cons_of_mem x h

/-- The value of `jsMin` bounds every member of the list from below. -/
theorem jsMin_le (l : List ℚ) (b : ℚ) (hb : b ∈ l) : jsMin l ≤ b := by
  cases l with
  | nil => cases hb
  | cons x xs =>
    show xs.foldl min x ≤ b
    rcases List.mem_cons.mp hb with h | h
    · rw [h]; exact foldl_min_le_init xs x
    · exact foldl_min_le_mem xs x b h

/-- On a non-empty list, `jsMax` is a member of the list. -/
theorem jsMax_mem (l : List ℚ) (hne : l ≠ []) : jsMax l ∈ l := by
  cases l with
  | nil => exact absurd rfl hne
  | cons x xs =>
    show xs.foldl max x ∈ x :: xs
    rcases foldl_max_mem xs x with h | h
    · rw [h]; exact List.mem_cons_self x xs
    · exact List.mem_cons_of_mem x h

/-- The value of `jsMax` bounds every member of the list from above. -/
theorem le_jsMax (l : List ℚ) (b : ℚ) (hb : b ∈ l) : b ≤ jsMax l := by
  cases l with
  | nil => cases hb
  | cons x xs =>
    show b ≤ xs.foldl max x
    rcases List.mem_cons.mp hb with h | h
    · rw [h]; exact init_le_foldl_max xs x
    · exact mem_le_foldl_max xs x b h

/-- The corner x-values of a non-empty word group form a non-empty list. -/
theorem flatMap_cornerXs_ne_nil (groupWords : List OcrWord) (hne : groupWords ≠ []) :
    groupWords.flatMap cornerXs ≠ [] := by
  cases groupWords with
  | nil => exact absurd rfl hne
  | cons w ws => simp [cornerXs]

/-- The corner y-values of a non-empty word group form a non-empty list. -/
theorem flatMap_cornerYs_ne_nil (groupWords : List OcrWord) (hne : groupWords ≠ []) :
    groupWords.flatMap cornerYs ≠ [] := by
  cases groupWords with
  | nil => exact absurd rfl hne
  | cons w ws => simp [cornerYs]

/-- C3: for every non-empty word group, the pre-normalization bounding box of
`wordsToHighlight` is the union box: its min x and min y are the minima, and
its max x and max y the maxima, over all four corner values of every member
word's quadrilateral — with no adjacency or disjointness assumption on the
member words. -/
theorem C3_union_bounding_box (groupWords : List OcrWord) (pw ph : ℚ)
    (text id : String) (hne : groupWords ≠ []) :
    (wordsToHighlight groupWords pw ph text id
        = { id := id, text := text,
            x := jsMin (groupWords.flatMap cornerXs) / pw,
            y := jsMin (groupWords.flatMap cornerYs) / ph,
            width := (jsMax (groupWords.flatMap cornerXs)
                - jsMin (groupWords.flatMap cornerXs)) / pw,
            height := (jsMax (groupWords.flatMap cornerYs)
                - jsMin (groupWords.flatMap cornerYs)) / ph })
      ∧ jsMin (groupWords.flatMap cornerXs) ∈ groupWords.flatMap cornerXs
      ∧ (∀ c ∈ groupWords.flatMap cornerXs, jsMin (groupWords.flatMap cornerXs) ≤ c)
      ∧ jsMax (groupWords.flatMap cornerXs) ∈ groupWords.flatMap cornerXs
      ∧ (∀ c ∈ groupWords.flatMap cornerXs, c ≤ jsMax (groupWords.flatMap cornerXs))
      ∧ jsMin (groupWords.flatMap cornerYs) ∈ groupWords.flatMap cornerYs
      ∧ (∀ c ∈ groupWords.flatMap cornerYs, jsMin (groupWords.flatMap cornerYs) ≤ c)
      ∧ jsMax (groupWords.flatMap cornerYs) ∈ groupWords.flatMap cornerYs
      ∧ (∀ c ∈ groupWords.flatMap cornerYs, c ≤ jsMax (groupWords.flatMap cornerYs)) := by
  refine ⟨rfl, jsMin_mem _ (flatMap_cornerXs_ne_nil groupWords hne),
    fun c hc => jsMin_le _ c hc,
    jsMax_mem _ (flatMap_cornerXs_ne_nil groupWords hne),
    fun c hc => le_jsMax _ c hc,
    jsMin_mem _ (flatMap_cornerYs_ne_nil groupWords hne),
    fun c hc => jsMin_le _ c hc,
    jsMax_mem _ (flatMap_cornerYs_ne_nil groupWords hne),
    fun c hc => le_jsMax _ c hc⟩

/-- Witness for C3 at a two-word group whose members are far apart and not
horizontally adjacent. -/
theorem C3_union_bounding_box_witness :
    ([⟨"JOHN", [10, 20, 60, 20, 60, 40, 10, 40]⟩,
      ⟨"FAR", [300, 200, 350, 200, 350, 230, 300, 230]⟩] : List OcrWord) ≠ []
      ∧ jsMin (([⟨"JOHN", [10, 20, 60, 20, 60, 40, 10, 40]⟩,
          ⟨"FAR", [300, 200, 350, 200, 350, 230, 300, 230]⟩] : List OcrWord).flatMap
            cornerXs) = 10
      ∧ jsMax (([⟨"JOHN", [10, 20, 60, 20, 60, 40, 10, 40]⟩,
          ⟨"FAR", [300, 200, 350, 200, 350, 230, 300, 230]⟩] : List OcrWord).flatMap
            cornerXs) = 350
      ∧ jsMin (([⟨"JOHN", [10, 20, 60, 20, 60, 40, 10, 40]⟩,
          ⟨"FAR", [300, 200, 350, 200, 350, 230, 300, 230]⟩] : List OcrWord).flatMap
            cornerXs)
          ∈ ([⟨"JOHN", [10, 20, 60, 20, 60, 40, 10, 40]⟩,
              ⟨"FAR", [300, 200, 350, 200, 350, 230, 300, 230]⟩] : List OcrWord).flatMap
              cornerXs := by
  have h := C3_union_bounding_box
    [⟨"JOHN", [10, 20, 60, 20, 60, 40, 10, 40]⟩,
     ⟨"FAR", [300, 200, 350, 200, 350, 230, 300, 230]⟩] 200 400 "t" "i" (by simp)
  refine ⟨by simp, ?_, ?_, h.2.1⟩
  · norm_num [cornerXs, jsMin, min_def]
  · norm_num [cornerXs, jsMax, max_def]

end DeathCert

namespace DeathCert

/-- An entry of `mapSet m k v` is an entry of `m` or the pair `(k, v)`. -/
theorem mem_mapSet {K V : Type} [DecidableEq K] {m : List (K × V)} {k : K} {v : V}
    {e : K × V} (he : e ∈ mapSet m k v) : e ∈ m ∨ e = (k, v) := by
  unfold mapSet at he
  by_cases h : m.any (fun e => e.1 = k)
  · rw [if_pos h] at he
    obtain ⟨a, ha, heq⟩ := List.mem_map.mp he
    by_cases h2 : a.1 = k
    · right; rw [← heq, if_pos h2]
    · left; rw [← heq, if_neg h2]; exact ha
  · rw [if_neg h] at he
    rcases List.mem_append.mp he with h1 | h1
    · exact Or.inl h1
    · exact Or.inr (by simpa using h1)

/-- The grouping fold preserves the invariant that every group carries at
least one resolved OCR word. -/
theorem foldl_groupStep_ocrWords_ne_nil (wm : List ((ℚ × ℚ) × OcrWord))
    (values : List FieldMatch) :
    ∀ (g : List (ℚ × Group)), (∀ e ∈ g, e.2.ocrWords ≠ []) →
      ∀ e ∈ values.foldl (groupStep wm) g, e.2.ocrWords ≠ [] := by
  induction values with
  | nil => intro g hg e he; exact hg e he
  | cons v vs ih =>
    intro g hg e he
    rw [List.foldl_cons] at he
    refine ih (groupStep wm g v) ?_ e he
    intro a ha
    unfold groupStep at ha
    cases hres : mapGet wm v.coordinate with
    | none => rw [hres] at ha; exact hg a ha
    | some mw =>
      rw [hres] at ha
      cases hgid : mapGet g v.groupId with
      | some ex =>
        rw [hgid] at ha
        rcases mem_mapSet ha with h | h
        · exact hg a h
        · rw [h]; simp
      | none =>
        rw [hgid] at ha
        rcases mem_mapSet ha with h | h
        · exact hg a h
        · rw [h]; simp

/-- C10: every group built by the grouping loop is non-empty — a group is only
created when a mention resolves and later members are only appended — so the
min/max corner computations of `wordsToHighlight` range over non-empty lists
and the pre-normalization box of any non-empty group satisfies
`minX ≤ maxX` and `minY ≤ maxY`, hence non-negative width and height for
positive page dimensions. -/
theorem C10_nonempty_groups :
    (∀ (values : List FieldMatch) (wm : List ((ℚ × ℚ) × OcrWord)) (e : ℚ × Group),
        e ∈ buildGroups values wm → e.2.ocrWords ≠ [])
    ∧ ∀ (groupWords : List OcrWord) (pw ph : ℚ) (text id : String),
        groupWords ≠ [] →
        jsMin (groupWords.flatMap cornerXs) ≤ jsMax (groupWords.flatMap cornerXs)
        ∧ jsMin (groupWords.flatMap cornerYs) ≤ jsMax (groupWords.flatMap cornerYs)
        ∧ (0 < pw → 0 ≤ (wordsToHighlight groupWords pw ph text id).width)
        ∧ (0 < ph → 0 ≤ (wordsToHighlight groupWords pw ph text id).height) := by
  constructor
  · intro values wm e he
    exact foldl_groupStep_ocrWords_ne_nil wm values [] (by intro a ha; cases ha) e he
  · intro groupWords pw ph text id hne
    have hx : jsMin (groupWords.flatMap cornerXs) ≤ jsMax (groupWords.flatMap cornerXs) :=
      jsMin_le _ _ (jsMax_mem _ (flatMap_cornerXs_ne_nil groupWords hne))
    have hy : jsMin (groupWords.flatMap cornerYs) ≤ jsMax (groupWords.flatMap cornerYs) :=
      jsMin_le _ _ (jsMax_mem _ (flatMap_cornerYs_ne_nil groupWords hne))
    refine ⟨hx, hy, fun hpw => ?_, fun hph => ?_⟩
    · exact div_nonneg (sub_nonneg.mpr hx) (le_of_lt hpw)
    · exact div_nonneg (sub_nonneg.mpr hy) (le_of_lt hph)

/-- Witness for C10 at a singleton group built from one resolved mention. -/
theorem C10_nonempty_groups_witness :
    ((1 : ℚ), (⟨["DOE"], [⟨"DOE", [10, 20, 60, 20, 60, 40, 10, 40]⟩]⟩ : Group))
        ∈ buildGroups [⟨"DOE", (10, 20), 1⟩]
            (buildWordMap [⟨"DOE", [10, 20, 60, 20, 60, 40, 10, 40]⟩])
      ∧ (⟨["DOE"], [⟨"DOE", [10, 20, 60, 20, 60, 40, 10, 40]⟩]⟩ : Group).ocrWords ≠ []
      ∧ ([⟨"DOE", [10, 20, 60, 20, 60, 40, 10, 40]⟩] : List OcrWord) ≠ []
      ∧ (0 : ℚ) < 200
      ∧ 0 ≤ (wordsToHighlight [⟨"DOE", [10, 20, 60, 20, 60, 40, 10, 40]⟩]
          200 400 "t" "i").width := by
  have heq : buildGroups [⟨"DOE", (10, 20), 1⟩]
      (buildWordMap [⟨"DOE", [10, 20, 60, 20, 60, 40, 10, 40]⟩])
      = [((1 : ℚ), (⟨["DOE"], [⟨"DOE", [10, 20, 60, 20, 60, 40, 10, 40]⟩]⟩ : Group))] :=
    rfl
  have hmem : ((1 : ℚ), (⟨["DOE"], [⟨"DOE", [10, 20, 60, 20, 60, 40, 10, 40]⟩]⟩ : Group))
      ∈ buildGroups [⟨"DOE", (10, 20), 1⟩]
          (buildWordMap [⟨"DOE", [10, 20, 60, 20, 60, 40, 10, 40]⟩]) := by
    rw [heq]; exact List.mem_singleton.mpr rfl
  refine ⟨hmem, C10_nonempty_groups.1 _ _ _ hmem, by simp, by norm_num,
    ((C10_nonempty_groups.2 [⟨"DOE", [10, 20, 60, 20, 60, 40, 10, 40]⟩]
        200 400 "t" "i" (by simp)).2.2.1 (by norm_num))⟩

end DeathCert

namespace DeathCert

/-- The accumulator of `String.intercalate.go` factors out on the left. -/
theorem intercalate_go_append (s : String) (as : List String) (pre acc : String) :
    String.intercalate.go (pre ++ acc) s as = pre ++ String.intercalate.go acc s as := by
  induction as generalizing acc with
  | nil => rfl
  | cons a as ih =>
    show String.intercalate.go (pre ++ acc ++ s ++ a) s as
      = pre ++ String.intercalate.go (acc ++ s ++ a) s as
    rw [String.append_assoc pre acc s, String.append_assoc pre (acc ++ s) a]
    exact ih ((acc ++ s) ++ a)

/-- Unfolding of `String.intercalate` on a list with at least two elements. -/
theorem intercalate_cons_cons (s a b : String) (l : List String) :
    String.intercalate s (a :: b :: l) = a ++ s ++ String.intercalate s (b :: l) := by
  show String.intercalate.go ((a ++ s) ++ b) s l
    = (a ++ s) ++ String.intercalate.go b s l
  exact intercalate_go_append s l (a ++ s) b

/-- Newline count is additive over string append. -/
theorem countNl_append (s t : String) : countNl (s ++ t) = countNl s + countNl t := by
  unfold countNl
  rw [String.data_append, List.count_append]

/-- Joining newline-free lines with the newline separator yields exactly one
newline between consecutive lines: `length - 1` newlines in total. -/
theorem countNl_intercalate (lines : List String) :
    (∀ l ∈ lines, countNl l = 0) → lines ≠ [] →
    countNl (String.intercalate "\n" lines) = lines.length - 1 := by
  induction lines with
  | nil => intro _ h2; exact absurd rfl h2
  | cons a as ih =>
    intro h _
    cases as with
    | nil =>
      show countNl (String.intercalate "\n" [a]) = 0
      have ha : String.intercalate "\n" [a] = a := rfl
      rw [ha]
      exact h a (by simp)
    | cons b bs =>
      rw [intercalate_cons_cons, countNl_append, countNl_append]
      rw [h a (by simp), ih (fun l hl => h l (by simp [hl])) (by simp)]
      have hnl : countNl "\n" = 1 := by decide
      rw [hnl]
      simp only [List.length_cons]
      omega

/-- C7: the Line Serializer is the newline join of exactly one line per word in
`content:x, y` form from the word's top-left corner: the i-th line is the
serialization of the i-th word (so input order is preserved, with no filtering
and no deduplication), the joined string contains `length - 1` newlines when
the per-word lines are newline-free, and — the serializer being a pure
function — serializing the same word list twice yields the identical string. -/
theorem C7_line_serializer (words : List OcrWord) :
    toTopLeftOcrLines words = String.intercalate "\n" (words.map ocrLine)
      ∧ (words.map ocrLine).length = words.length
      ∧ (∀ i : Nat, (words.map ocrLine)[i]? = (words[i]?).map ocrLine)
      ∧ toTopLeftOcrLines words = toTopLeftOcrLines words
      ∧ (words ≠ [] → (∀ w ∈ words, countNl (ocrLine w) = 0) →
          countNl (toTopLeftOcrLines words) = words.length - 1) := by
  refine ⟨rfl, List.length_map words ocrLine, ?_, rfl, ?_⟩
  · intro i
    simp [List.getElem?_map]
  · intro hne hfree
    show countNl (String.intercalate "\n" (words.map ocrLine)) = words.length - 1
    rw [countNl_intercalate (words.map ocrLine) ?_ ?_, List.length_map]
    · intro l hl
      obtain ⟨w, hw, rfl⟩ := List.mem_map.mp hl
      exact hfree w hw
    · intro h
      exact hne (List.map_eq_nil_iff.mp h)

/-- Witness for C7 at a two-word list with newline-free serialized lines. -/
theorem C7_line_serializer_witness :
    ([⟨"DOE", [10, 20, 60, 20, 60, 40, 10, 40]⟩,
      ⟨"JOHN", [70, 20, 120, 20, 120, 40, 70, 40]⟩] : List OcrWord) ≠ []
      ∧ (∀ w ∈ ([⟨"DOE", [10, 20, 60, 20, 60, 40, 10, 40]⟩,
          ⟨"JOHN", [70, 20, 120, 20, 120, 40, 70, 40]⟩] : List OcrWord),
          countNl (ocrLine w) = 0)
      ∧ countNl (toTopLeftOcrLines
          [⟨"DOE", [10, 20, 60, 20, 60, 40, 10, 40]⟩,
           ⟨"JOHN", [70, 20, 120, 20, 120, 40, 70, 40]⟩]) = 1 := by
  refine ⟨by simp, by decide, ?_⟩
  have h := (C7_line_serializer
    [⟨"DOE", [10, 20, 60, 20, 60, 40, 10, 40]⟩,
     ⟨"JOHN", [70, 20, 120, 20, 120, 40, 70, 40]⟩]).2.2.2.2 (by simp) (by decide)
  simpa using h

end DeathCert
